import Mathlib

/-!
Verification of the twinstar Gemini server core.

Strings from the Rust source are modelled as `List Char`; UTF-8 byte
positions are tracked with `Char.utf8Size`.  Byte streams are modelled
as `List Nat`.  Fallible operations return `Option` or `Except`; a
`none` result of an operation the source implements with
`.expect(...)` models a panic.
-/

set_option maxRecDepth 8192

namespace Twinstar

/-! ## Meta (src/types/meta.rs)

`Meta` is a UTF-8 string that must contain no newline and be at most
1024 bytes long.  `Meta::new_lossy` scans `char_indices()` with
`Iterator::position` and slices the string with `str::get(..pos)`.
-/

/-- `Meta::MAX_LEN`. -/
def metaMaxLen : Nat := 1024

/-- UTF-8 byte length of a string (`str::len`). -/
def utf8Len (s : List Char) : Nat := (s.map Char.utf8Size).sum

/-- `str::char_indices()` starting from byte offset `i`:
each character paired with its byte index. -/
def charIndicesFrom (i : Nat) : List Char → List (Nat × Char)
  | [] => []
  | c :: cs => (i, c) :: charIndicesFrom (i + c.utf8Size) cs

/-- `str::char_indices()`. -/
def charIndices (s : List Char) : List (Nat × Char) := charIndicesFrom 0 s

/-- The predicate passed to `Iterator::position` in `Meta::new_lossy`:
the character is a newline, or its inclusive byte end exceeds
`Meta::MAX_LEN`. -/
def newLossyStop (p : Nat × Char) : Bool :=
  p.2 = '\n' || decide (p.1 + p.2.utf8Size > metaMaxLen)

/-- `str::get(..p)` on a byte range: `some` of the character list whose
total UTF-8 length is exactly `p` when `p` is a character boundary,
`none` otherwise. -/
def byteSlice : List Char → Nat → Option (List Char)
  | _, 0 => some []
  | [], _ + 1 => none
  | c :: cs, p + 1 =>
    if c.utf8Size ≤ p + 1 then (byteSlice cs (p + 1 - c.utf8Size)).map (c :: ·)
    else none

/-- `Meta::new_lossy`.  `Iterator::position` yields the *ordinal* of the
first stopping character (not its byte index); the source then slices
the string at that ordinal interpreted as a byte position.  A `none`
result models the `.expect("twinstar BUG")` panic on a failed slice. -/
def meta_new_lossy (s : List Char) : Option (List Char) :=
  match (charIndices s).findIdx? newLossyStop with
  | none => some s
  | some p => byteSlice s p

/-- Modelled from the spec: truncation of `s` at whichever comes first
of the two cut points, immediately before the first `'\n'` or
immediately before the first whole code point whose inclusive byte end
would exceed 1024 bytes.  (This follows the words of the spec and of
the claim; it is the comparison point for the source's
`Meta::new_lossy`.) -/
def specLossyTruncFrom : Nat → List Char → List Char
  | _, [] => []
  | i, c :: cs =>
    if c = '\n' ∨ i + c.utf8Size > metaMaxLen then []
    else c :: specLossyTruncFrom (i + c.utf8Size) cs

/-- Spec-side lossy truncation, starting at byte offset 0. -/
def specLossyTrunc (s : List Char) : List Char := specLossyTruncFrom 0 s

/-- `Meta::new` (strict constructor): fails on an embedded newline or a
byte length above `Meta::MAX_LEN`. -/
def meta_new (s : List Char) : Option (List Char) :=
  if '\n' ∈ s then none
  else if utf8Len s ≤ metaMaxLen then some s
  else none

theorem charIndicesFrom_byte_le (s : List Char) :
    ∀ i p, p ∈ charIndicesFrom i s → p.1 + p.2.utf8Size ≤ i + utf8Len s := by
  induction s with
  | nil => intro i p h; simp [charIndicesFrom] at h
  | cons c cs ih =>
    intro i p h
    simp only [charIndicesFrom, List.mem_cons] at h
    rcases h with h | h
    · subst h
      simp only [utf8Len, List.map_cons, List.sum_cons]
      omega
    · have := ih (i + c.utf8Size) p h
      simp only [utf8Len, List.map_cons, List.sum_cons] at this ⊢
      omega

theorem findIdx?_eq_none_of_all_false {α : Type} (p : α → Bool) (l : List α)
    (h : ∀ a ∈ l, p a = false) : l.findIdx? p = none := by
  induction l with
  | nil => rfl
  | cons x xs ih =>
    have hx := h x (List.mem_cons_self x xs)
    simp only [List.findIdx?_cons, hx, Nat.zero_add, cond_false]
    have := ih (fun a ha => h a (List.mem_cons_of_mem x ha))
    simp [this]

theorem mem_of_mem_charIndicesFrom (s : List Char) :
    ∀ i p, p ∈ charIndicesFrom i s → p.2 ∈ s := by
  induction s with
  | nil => intro i p h; simp [charIndicesFrom] at h
  | cons c cs ih =>
    intro i p h
    simp only [charIndicesFrom, List.mem_cons] at h
    rcases h with h | h
    · subst h; exact List.mem_cons_self c cs
    · exact List.mem_cons_of_mem c (ih (i + c.utf8Size) p h)

/-- On a string with no newline and byte length within the limit, the
stopping predicate never fires. -/
theorem new_lossy_no_stop (s : List Char) (hnl : '\n' ∉ s)
    (hlen : utf8Len s ≤ metaMaxLen) :
    (charIndices s).findIdx? newLossyStop = none := by
  apply findIdx?_eq_none_of_all_false
  intro a ha
  have hle := charIndicesFrom_byte_le s 0 a ha
  have hmem : a.2 ∈ s := mem_of_mem_charIndicesFrom s 0 a ha
  have hne : a.2 ≠ '\n' := fun h => hnl (h ▸ hmem)
  simp only [newLossyStop, Bool.or_eq_false_iff, decide_eq_false_iff_not]
  exact ⟨by simp [hne], by omega⟩

/-- C3: the claim says `Meta::new_lossy(s)` never fails and in
particular the internal slicing step never panics.  On the two-byte
character `'é'` followed by `'\n'`, `Iterator::position` returns the
ordinal 1, which is not a character boundary of the string, so
`str::get(..1)` returns `None` and the `.expect("twinstar BUG")`
panics: the embedded `meta_new_lossy` returns `none`. -/
theorem meta_new_lossy_panics_on_multibyte :
    meta_new_lossy ['é', '\n'] = none := by decide

/-- C4: the claim says `Meta::new_lossy` truncates immediately before
the first `'\n'` (here: the first 3 bytes, `"éa"`).  On `"éa\n"` the
source instead slices at the ordinal 2 of the newline, producing `"é"`,
which differs from the spec-modelled truncation `specLossyTrunc`. -/
theorem meta_new_lossy_wrong_truncation :
    meta_new_lossy ['é', 'a', '\n'] = some ['é'] ∧
    specLossyTrunc ['é', 'a', '\n'] = ['é', 'a'] ∧
    some (specLossyTrunc ['é', 'a', '\n']) ≠ meta_new_lossy ['é', 'a', '\n'] := by
  refine ⟨by decide, by decide, by decide⟩

/-- C10: `Meta::new_lossy` is the identity on already-valid input: if
`s` contains no newline and its UTF-8 length is at most 1024 bytes,
the result is `some s` (no truncation, no panic). -/
theorem meta_new_lossy_identity_on_valid (s : List Char)
    (hnl : '\n' ∉ s) (hlen : utf8Len s ≤ metaMaxLen) :
    meta_new_lossy s = some s := by
  unfold meta_new_lossy
  rw [new_lossy_no_stop s hnl hlen]

theorem meta_new_lossy_identity_on_valid_witness :
    '\n' ∉ ['o', 'k'] ∧ utf8Len ['o', 'k'] ≤ metaMaxLen ∧
    meta_new_lossy ['o', 'k'] = some ['o', 'k'] :=
  ⟨by decide, by decide,
    meta_new_lossy_identity_on_valid ['o', 'k'] (by decide) (by decide)⟩

/-! ## Wire codec, request side (src/lib.rs, `receive_request`)

The request line is read with `AsyncBufRead::read_until(b'\n')` through
a `Take` adapter limited to `REQUEST_URI_MAX_LEN + 2 = 1026` bytes, then
checked for a CRLF terminator.  The stream contents are modelled as the
byte list `input`; reading stops at the first LF, at the byte limit, or
at end of input. -/

/-- `REQUEST_URI_MAX_LEN`. -/
def requestUriMaxLen : Nat := 1024

/-- `read_until(b'\n')` on a stream limited to `limit` bytes: the bytes
read, up to and including the first LF. -/
def readUntilLF : Nat → List Nat → List Nat
  | 0, _ => []
  | _ + 1, [] => []
  | n + 1, b :: rest => if b = 10 then [b] else b :: readUntilLF n rest

/-- `uri.ends_with(b"\r\n")`. -/
def endsWithCRLF (l : List Nat) : Bool :=
  match l.reverse with
  | a :: b :: _ => a = 10 && b = 13
  | _ => false

/-- The two framing errors `receive_request` can report before URI
parsing: `"Request header not terminated with CRLF"` and
`"Request URI too long"`. -/
inductive RequestError where
  | badFraming
  | uriTooLong
deriving DecidableEq

/-- `receive_request`, up to URI parsing: reads the request line under
the 1026-byte limit, rejects a missing CRLF terminator (`badFraming` if
fewer than `REQUEST_URI_MAX_LEN` bytes were read, `uriTooLong`
otherwise), and strips the CRLF from an accepted line. -/
def receive_request (input : List Nat) : Except RequestError (List Nat) :=
  let uri := readUntilLF (requestUriMaxLen + 2) input
  if endsWithCRLF uri then
    Except.ok uri.dropLast.dropLast
  else if uri.length < requestUriMaxLen then
    Except.error RequestError.badFraming
  else
    Except.error RequestError.uriTooLong

/-- The claim's hypothesis on the request-line payload: no CR and no LF
bytes. -/
def noCRLFBytes (d : List Nat) : Prop := ∀ b ∈ d, b ≠ 13 ∧ b ≠ 10

theorem readUntilLF_no_lf (n : Nat) (l : List Nat) (h : ∀ b ∈ l, b ≠ 10) :
    readUntilLF n l = l.take n := by
  induction n generalizing l with
  | zero => simp [readUntilLF]
  | succ m ih =>
    cases l with
    | nil => simp [readUntilLF]
    | cons b rest =>
      have hb := h b (List.mem_cons_self b rest)
      simp only [readUntilLF, hb, if_false, List.take_succ_cons]
      rw [ih rest (fun x hx => h x (List.mem_cons_of_mem b hx))]

theorem readUntilLF_append (n : Nat) (d rest : List Nat) (h : ∀ b ∈ d, b ≠ 10)
    (hlen : d.length < n) :
    readUntilLF n (d ++ rest) = d ++ readUntilLF (n - d.length) rest := by
  induction d generalizing n with
  | nil => simp
  | cons b bs ih =>
    cases n with
    | zero => omega
    | succ m =>
      have hb := h b (List.mem_cons_self b bs)
      simp only [List.cons_append, readUntilLF, hb, if_false, List.length_cons,
        List.append_eq]
      rw [ih m (fun x hx => h x (List.mem_cons_of_mem b hx)) (by simpa using hlen)]
      simp [Nat.succ_sub_succ]

theorem endsWithCRLF_append_crlf (d : List Nat) :
    endsWithCRLF (d ++ [13, 10]) = true := by
  simp [endsWithCRLF, List.reverse_append]

theorem endsWithCRLF_no_lf (d : List Nat) (h : ∀ b ∈ d, b ≠ 10) :
    endsWithCRLF d = false := by
  unfold endsWithCRLF
  cases hr : d.reverse with
  | nil => rfl
  | cons a tl =>
    have ha : a ∈ d := by
      have : a ∈ d.reverse := hr ▸ List.mem_cons_self a tl
      simpa using this
    cases tl with
    | nil => rfl
    | cons b tl' => simp [h a ha]

theorem endsWithCRLF_append_cr (d : List Nat) :
    endsWithCRLF (d ++ [13]) = false := by
  unfold endsWithCRLF
  rw [List.reverse_append]
  cases d.reverse <;> simp

theorem receive_request_no_lf_eq (d : List Nat) (h : ∀ b ∈ d, b ≠ 10)
    (hlen : d.length ≤ requestUriMaxLen) :
    receive_request d =
      (if d.length < requestUriMaxLen then Except.error RequestError.badFraming
       else Except.error RequestError.uriTooLong) := by
  unfold receive_request
  rw [readUntilLF_no_lf _ d h, List.take_of_length_le (by omega)]
  simp [endsWithCRLF_no_lf d h]

theorem receive_request_crlf_1024 (d : List Nat) (h : ∀ b ∈ d, b ≠ 10)
    (hlen : d.length = 1024) :
    receive_request (d ++ [13, 10]) = Except.ok d := by
  unfold receive_request
  rw [readUntilLF_append _ d [13, 10] h (by rw [hlen]; decide), hlen]
  have h2 : readUntilLF (requestUriMaxLen + 2 - 1024) [13, 10] = [13, 10] := by decide
  have h3 : d ++ [13, 10] = (d ++ [13]) ++ [10] := by simp
  rw [h2]
  simp only [endsWithCRLF_append_crlf, if_true]
  rw [h3, List.dropLast_concat, List.dropLast_concat]

theorem receive_request_crlf_1025 (d : List Nat) (h : ∀ b ∈ d, b ≠ 10)
    (hlen : d.length = 1025) :
    receive_request (d ++ [13, 10]) = Except.error RequestError.uriTooLong := by
  unfold receive_request
  rw [readUntilLF_append _ d [13, 10] h (by rw [hlen]; decide), hlen]
  have h2 : readUntilLF (requestUriMaxLen + 2 - 1025) [13, 10] = [13] := by decide
  rw [h2]
  simp only [endsWithCRLF_append_cr, Bool.false_eq_true, if_false, List.length_append,
    hlen]
  rw [if_neg (by decide)]

/-- C2: counterexample to the claim as stated.  For an input of exactly
1024 bytes containing no CRLF, `receive_request` reports `uriTooLong`
(the source tests `uri.len() < REQUEST_URI_MAX_LEN` with a strict
inequality), not the `badFraming` error the claim requires. -/
theorem receive_request_1024_no_crlf_counterexample :
    receive_request (List.replicate 1024 120) = Except.error RequestError.uriTooLong ∧
    receive_request (List.replicate 1024 120) ≠ Except.error RequestError.badFraming := by
  have h : receive_request (List.replicate 1024 120) =
      Except.error RequestError.uriTooLong := by
    rw [receive_request_no_lf_eq (List.replicate 1024 120)
      (fun b hb => by simp [List.eq_of_mem_replicate hb])
      (by simp [requestUriMaxLen])]
    rw [if_neg (by simp [requestUriMaxLen])]
  refine ⟨h, ?_⟩
  rw [h]
  intro hc
  exact RequestError.noConfusion (Except.error.inj hc)

/-- C2 (amended): a request line of 1024 non-CRLF bytes followed by
CRLF succeeds and returns those bytes; 1025 non-CRLF bytes followed by
CRLF fails with `uriTooLong`; data that ends without CRLF after fewer
than 1024 bytes fails with `badFraming`; data of exactly 1024 bytes
with no CRLF fails with `uriTooLong`. -/
theorem receive_request_limits :
    (∀ d : List Nat, noCRLFBytes d → d.length = 1024 →
      receive_request (d ++ [13, 10]) = Except.ok d) ∧
    (∀ d : List Nat, noCRLFBytes d → d.length = 1025 →
      receive_request (d ++ [13, 10]) = Except.error RequestError.uriTooLong) ∧
    (∀ d : List Nat, noCRLFBytes d → d.length < 1024 →
      receive_request d = Except.error RequestError.badFraming) ∧
    (∀ d : List Nat, noCRLFBytes d → d.length = 1024 →
      receive_request d = Except.error RequestError.uriTooLong) := by
  refine ⟨?_, ?_, ?_, ?_⟩
  · intro d h hlen
    exact receive_request_crlf_1024 d (fun b hb => (h b hb).2) hlen
  · intro d h hlen
    exact receive_request_crlf_1025 d (fun b hb => (h b hb).2) hlen
  · intro d h hlen
    rw [receive_request_no_lf_eq d (fun b hb => (h b hb).2)
      (by simp [requestUriMaxLen]; omega)]
    rw [if_pos (by simpa [requestUriMaxLen] using hlen)]
  · intro d h hlen
    rw [receive_request_no_lf_eq d (fun b hb => (h b hb).2)
      (by simp [requestUriMaxLen, hlen])]
    rw [if_neg (by simp [requestUriMaxLen, hlen])]

theorem receive_request_limits_witness :
    receive_request (List.replicate 1024 120 ++ [13, 10]) =
      Except.ok (List.replicate 1024 120) ∧
    receive_request (List.replicate 1025 120 ++ [13, 10]) =
      Except.error RequestError.uriTooLong ∧
    receive_request (List.replicate 3 120) = Except.error RequestError.badFraming := by
  have hno : ∀ n, noCRLFBytes (List.replicate n 120) := by
    intro n b hb
    simp [List.eq_of_mem_replicate hb]
  refine ⟨?_, ?_, ?_⟩
  · exact receive_request_limits.1 (List.replicate 1024 120) (hno 1024) (by simp)
  · exact receive_request_limits.2.1 (List.replicate 1025 120) (hno 1025) (by simp)
  · exact receive_request_limits.2.2.1 (List.replicate 3 120) (hno 3) (by simp)

/-! ## Status (src/types/status.rs) -/

/-- `Status`, a wrapped status code byte. -/
structure Status where
  code : Nat
deriving DecidableEq

def Status.INPUT : Status := ⟨10⟩
def Status.SENSITIVE_INPUT : Status := ⟨11⟩
def Status.SUCCESS : Status := ⟨20⟩
def Status.REDIRECT_TEMPORARY : Status := ⟨30⟩
def Status.REDIRECT_PERMANENT : Status := ⟨31⟩
def Status.TEMPORARY_FAILURE : Status := ⟨40⟩
def Status.SERVER_UNAVAILABLE : Status := ⟨41⟩
def Status.CGI_ERROR : Status := ⟨42⟩
def Status.PROXY_ERROR : Status := ⟨43⟩
def Status.SLOW_DOWN : Status := ⟨44⟩
def Status.PERMANENT_FAILURE : Status := ⟨50⟩
def Status.NOT_FOUND : Status := ⟨51⟩
def Status.GONE : Status := ⟨52⟩
def Status.PROXY_REQUEST_REFUSED : Status := ⟨53⟩
def Status.BAD_REQUEST : Status := ⟨59⟩
def Status.CLIENT_CERTIFICATE_REQUIRED : Status := ⟨60⟩
def Status.CERTIFICATE_NOT_AUTHORIZED : Status := ⟨61⟩
def Status.CERTIFICATE_NOT_VALID : Status := ⟨62⟩

/-- `StatusCategory`. -/
inductive StatusCategory where
  | input
  | success
  | redirect
  | temporaryFailure
  | permanentFailure
  | clientCertificateRequired
deriving DecidableEq

/-- `Status::category`: integer division of the code by ten. -/
def Status.category (s : Status) : StatusCategory :=
  match s.code / 10 with
  | 1 => StatusCategory.input
  | 2 => StatusCategory.success
  | 3 => StatusCategory.redirect
  | 4 => StatusCategory.temporaryFailure
  | 5 => StatusCategory.permanentFailure
  | 6 => StatusCategory.clientCertificateRequired
  | _ => StatusCategory.permanentFailure

/-- `Status::is_success`. -/
def Status.is_success (s : Status) : Bool :=
  s.category = StatusCategory.success

/-- The `Status` invariant: user code can only construct the
enumerated constants. -/
def Status.valid (s : Status) : Prop :=
  s ∈ [Status.INPUT, Status.SENSITIVE_INPUT, Status.SUCCESS,
    Status.REDIRECT_TEMPORARY, Status.REDIRECT_PERMANENT,
    Status.TEMPORARY_FAILURE, Status.SERVER_UNAVAILABLE, Status.CGI_ERROR,
    Status.PROXY_ERROR, Status.SLOW_DOWN, Status.PERMANENT_FAILURE,
    Status.NOT_FOUND, Status.GONE, Status.PROXY_REQUEST_REFUSED,
    Status.BAD_REQUEST, Status.CLIENT_CERTIFICATE_REQUIRED,
    Status.CERTIFICATE_NOT_AUTHORIZED, Status.CERTIFICATE_NOT_VALID]

instance (s : Status) : Decidable s.valid := by
  unfold Status.valid
  infer_instance

/-! ## Response, Body, handler outcome (src/types/response.rs,
src/types/response_header.rs, src/types/body.rs, src/lib.rs) -/

/-- `ResponseHeader`: a status and a meta string (characters). -/
structure ResponseHeader where
  status : Status
  meta : List Char
deriving DecidableEq

/-- `Body`: inline bytes, or a streaming reader modelled by the bytes
it eventually yields (`io::copy` copies it to the stream until EOF). -/
inductive Body where
  | bytes (data : List Nat)
  | reader (data : List Nat)
deriving DecidableEq

/-- The bytes a `Body` contributes to the wire. -/
def Body.toBytes : Body → List Nat
  | Body.bytes d => d
  | Body.reader d => d

/-- `Response`: header plus optional body. -/
structure Response where
  header : ResponseHeader
  body : Option Body
deriving DecidableEq

/-- `ResponseHeader::server_error`: status 50 with a strict `Meta`
built from the reason. -/
def ResponseHeader.server_error (reason : List Char) : Option ResponseHeader :=
  (meta_new reason).map (fun m => ⟨Status.PERMANENT_FAILURE, m⟩)

/-- `Response::server_error`: a body-less response from
`ResponseHeader::server_error`. -/
def Response.server_error (reason : List Char) : Option Response :=
  (ResponseHeader.server_error reason).map (fun h => ⟨h, none⟩)

/-- The three ways a handler invocation can end in `serve_client`:
a panic caught by `catch_unwind`, an error value, or a response. -/
inductive HandlerOutcome where
  | panicked
  | errored
  | ok (r : Response)

/-- The response `serve_client` goes on to send, from
`handler.catch_unwind().await.unwrap_or_else(..).or_else(..)`:
a panic or an error value is replaced by `Response::server_error("")`. -/
def handler_response (o : HandlerOutcome) : Option Response :=
  match o with
  | HandlerOutcome.panicked => Response.server_error []
  | HandlerOutcome.errored => Response.server_error []
  | HandlerOutcome.ok r => some r

/-- C7: a handler panic, and a handler error value, are both converted
to a response with status 50 (`PERMANENT_FAILURE`), an empty meta
string and no body. -/
theorem handler_failure_yields_status50_empty_meta :
    handler_response HandlerOutcome.panicked =
      some ⟨⟨Status.PERMANENT_FAILURE, []⟩, none⟩ ∧
    handler_response HandlerOutcome.errored =
      some ⟨⟨Status.PERMANENT_FAILURE, []⟩, none⟩ ∧
    Status.PERMANENT_FAILURE.code = 50 := by
  decide

/-! ## Response emission and the two-phase timeout (src/lib.rs,
`Server::send_response`) -/

/-- The two timeout disciplines `Server::send_response` can apply:
separate header and body deadlines, or one deadline for header, body
and flush together. -/
inductive TimeoutPlan where
  | twoPhase (headerBudget bodyBudget : Nat)
  | single (budget : Nat)
deriving DecidableEq

/-- The server's timeout configuration: `timeout` and
`complex_timeout` from the builder. -/
structure ServerTimeouts where
  timeout : Nat
  complex_timeout : Option Nat
deriving DecidableEq

/-- The timeout discipline chosen by `Server::send_response`: the
special two-phase case is taken exactly when the status equals
`Status::SUCCESS`, a body is present, the meta string matches
`"text/plain" | "text/gemini"`, and a complex timeout is configured;
every other path uses the single `self.timeout` deadline. -/
def send_response_plan (cfg : ServerTimeouts) (r : Response) : TimeoutPlan :=
  if r.header.status = Status.SUCCESS ∧ r.body.isSome then
    if r.header.meta = "text/plain".toList ∨ r.header.meta = "text/gemini".toList then
      match cfg.complex_timeout with
      | some c => TimeoutPlan.twoPhase cfg.timeout c
      | none => TimeoutPlan.single cfg.timeout
    else TimeoutPlan.single cfg.timeout
  else TimeoutPlan.single cfg.timeout

/-- Modelled from the spec: `complex = status.is_success() ∧ body is
present ∧ meta ∉ {"text/plain","text/gemini"} ∧ complex_timeout is
configured`. -/
def spec_complex (cfg : ServerTimeouts) (r : Response) : Bool :=
  r.header.status.is_success && r.body.isSome &&
    !(r.header.meta = "text/plain".toList || r.header.meta = "text/gemini".toList) &&
    cfg.complex_timeout.isSome

/-- C1: the source applies the two-phase timeout on the *complement*
of the spec's `complex` predicate.  With base timeout 1, complex
timeout 30: a successful `image/png` response with a body is complex
per the spec but gets the single base deadline, while a successful
`text/gemini` response with a body is not complex per the spec but
gets the two-phase deadlines.  (The builder's own documentation agrees
with the spec: the override is meant for MIME types outside
`text/plain` and `text/gemini`.) -/
theorem send_response_complex_timeout_inverted :
    spec_complex ⟨1, some 30⟩
      ⟨⟨Status.SUCCESS, "image/png".toList⟩, some (Body.bytes [])⟩ = true ∧
    send_response_plan ⟨1, some 30⟩
      ⟨⟨Status.SUCCESS, "image/png".toList⟩, some (Body.bytes [])⟩ =
      TimeoutPlan.single 1 ∧
    spec_complex ⟨1, some 30⟩
      ⟨⟨Status.SUCCESS, "text/gemini".toList⟩, some (Body.bytes [])⟩ = false ∧
    send_response_plan ⟨1, some 30⟩
      ⟨⟨Status.SUCCESS, "text/gemini".toList⟩, some (Body.bytes [])⟩ =
      TimeoutPlan.twoPhase 1 30 := by
  decide

/-! ## Wire codec, response side (src/lib.rs, `send_response_header`,
`send_response_body`) -/

/-- `send_response_header`: the characters of
`format!("{status} {meta}\r\n")`, the status code printed in decimal
(`Nat.toDigits 10` models the `Display` of the code). -/
def send_response_header (h : ResponseHeader) : List Char :=
  Nat.toDigits 10 h.status.code ++ [' '] ++ h.meta ++ ['\r', '\n']

/-- What `Server::send_response` writes: the header line followed by
the body bytes (if any), then a flush. -/
structure WireOutput where
  header : List Char
  body : List Nat
deriving DecidableEq

/-- The wire output of `Server::send_response` for a response. -/
def send_response_wire (r : Response) : WireOutput :=
  { header := send_response_header r.header,
    body :=
      match r.body with
      | some b => b.toBytes
      | none => [] }

theorem valid_code_two_digits (s : Status) (h : s.valid) :
    (Nat.toDigits 10 s.code).length = 2 ∧
      ∀ c ∈ Nat.toDigits 10 s.code, c.isDigit := by
  simp only [Status.valid] at h
  fin_cases h <;> decide

/-- C8: the wire output is exactly the status code in decimal, a
space, the meta characters verbatim, CRLF, then the body bytes (from
either `Body` arm) and nothing else; under the `Status` invariant the
decimal rendering of the code is exactly two digit characters. -/
theorem response_wire_format (r : Response) (h : r.header.status.valid) :
    (send_response_wire r).header =
      Nat.toDigits 10 r.header.status.code ++ ' ' :: (r.header.meta ++ ['\r', '\n']) ∧
    (Nat.toDigits 10 r.header.status.code).length = 2 ∧
    (∀ c ∈ Nat.toDigits 10 r.header.status.code, c.isDigit) ∧
    (send_response_wire r).body = ((r.body.map Body.toBytes).getD []) := by
  obtain ⟨hlen, hdig⟩ := valid_code_two_digits r.header.status h
  refine ⟨?_, hlen, hdig, ?_⟩
  · simp [send_response_wire, send_response_header]
  · obtain ⟨hd, b⟩ := r
    cases b <;> rfl

theorem response_wire_format_witness :
    Status.valid Status.SUCCESS ∧
    (send_response_wire
        ⟨⟨Status.SUCCESS, "text/gemini".toList⟩, some (Body.bytes [104, 105])⟩).header =
      Nat.toDigits 10 20 ++ ' ' :: ("text/gemini".toList ++ ['\r', '\n']) ∧
    (Nat.toDigits 10 20).length = 2 := by
  refine ⟨by decide, ?_, ?_⟩
  · exact (response_wire_format
      ⟨⟨Status.SUCCESS, "text/gemini".toList⟩, some (Body.bytes [104, 105])⟩
      (by decide)).1
  · exact (response_wire_format
      ⟨⟨Status.SUCCESS, "text/gemini".toList⟩, some (Body.bytes [104, 105])⟩
      (by decide)).2.1

/-! ## Routing tree (src/routing.rs)

`RoutingNode<T>` holds an optional value and a `HashMap` from segment
to child node.  The map is modelled as an association list with unique
keys (`assocUpdate` replaces in place).  `add_route_by_path` receives
the path segments after `uriparse`'s normalization — the external
`Path::normalize` is out of scope — and itself skips empty segments,
as the source does. -/

/-- `RoutingNode<T>`. -/
inductive RoutingNode (T : Type) where
  | node (value : Option T) (children : List (String × RoutingNode T))

/-- The node's optional value (field `.0`). -/
def RoutingNode.value {T : Type} : RoutingNode T → Option T
  | RoutingNode.node v _ => v

/-- The node's child map (field `.1`). -/
def RoutingNode.children {T : Type} :
    RoutingNode T → List (String × RoutingNode T)
  | RoutingNode.node _ m => m

/-- `HashMap::get`. -/
def assocGet {T : Type} :
    List (String × RoutingNode T) → String → Option (RoutingNode T)
  | [], _ => none
  | (k', v') :: rest, k => if k' = k then some v' else assocGet rest k

/-- Writing back through `HashMap::entry(k).or_default()`: replace the
binding of `k`, or append a fresh one. -/
def assocUpdate {T : Type} :
    List (String × RoutingNode T) → String → RoutingNode T →
      List (String × RoutingNode T)
  | [], k, c => [(k, c)]
  | (k', v') :: rest, k, c =>
    if k' = k then (k, c) :: rest else (k', v') :: assocUpdate rest k c

/-- `RoutingNode::add_route_by_path` on the path's segments: traverse
or create child nodes along the nonempty segments and attach the value
at the terminal node; `none` models `ConflictingRouteError`, returned
when the terminal node already holds a value. -/
def add_route_by_path {T : Type} (t : RoutingNode T) (segs : List String)
    (data : T) : Option (RoutingNode T) :=
  match segs with
  | [] =>
    match t with
    | RoutingNode.node (some _) _ => none
    | RoutingNode.node none m => some (RoutingNode.node (some data) m)
  | seg :: rest =>
    if seg = "" then add_route_by_path t rest data
    else
      match t with
      | RoutingNode.node v m =>
        let child := (assocGet m seg).getD (RoutingNode.node none [])
        (add_route_by_path child rest data).map
          (fun c => RoutingNode.node v (assocUpdate m seg c))

/-- The loop of `RoutingNode::match_path`: `since` models
`since_last_handler`, `last` models `last_seen_handler`.  At each node
a held value resets the accumulators; then either the path is
exhausted, or the next segment is looked up, pushed, and followed if a
child exists. -/
def matchLoop {T : Type} (t : RoutingNode T) (path since : List String)
    (last : Option T) : Option (List String × T) :=
  let last' := if t.value.isSome then t.value else last
  let since' := if t.value.isSome then [] else since
  match path with
  | [] => last'.map (fun h => (since', h))
  | seg :: rest =>
    match assocGet t.children seg with
    | some child => matchLoop child rest (since' ++ [seg]) last'
    | none => last'.map (fun h => (since' ++ seg :: rest, h))

/-- `RoutingNode::match_path`: filter out empty segments, then descend
recording the most recently seen value. -/
def match_path {T : Type} (t : RoutingNode T) (path : List String) :
    Option (List String × T) :=
  matchLoop t (path.filter (fun s => s ≠ "")) [] none

/-- The value stored at an exact (already normalized) segment path:
descend the children by the segments; `none` if the node does not
exist or holds no value. -/
def valueAt {T : Type} (t : RoutingNode T) (segs : List String) : Option T :=
  match segs with
  | [] => t.value
  | seg :: rest =>
    match assocGet t.children seg with
    | some child => valueAt child rest
    | none => none

/-- The greatest `n ≤ bound` satisfying `p`, if any. -/
def findGreatestB (p : Nat → Bool) : Nat → Option Nat
  | 0 => if p 0 then some 0 else none
  | n + 1 => if p (n + 1) then some (n + 1) else findGreatestB p n

/-- Empty-segment removal (the part of path normalization the routing
code performs itself). -/
def normSegs (p : List String) : List String := p.filter (fun s => s ≠ "")

/-- Modelled from the claim: the length of the longest prefix of `l`
at which the tree holds a value. -/
def bestPrefixLen {T : Type} (t : RoutingNode T) (l : List String) : Option Nat :=
  findGreatestB (fun n => (valueAt t (l.take n)).isSome) l.length

/-- Modelled from the claim: the match is the value at the longest
normalized prefix of the path at which the tree holds a value, paired
with the remaining segments after that prefix. -/
def matchSpec {T : Type} (t : RoutingNode T) (path : List String) :
    Option (List String × T) :=
  (bestPrefixLen t (normSegs path)).bind
    (fun n => (valueAt t ((normSegs path).take n)).map
      (fun h => ((normSegs path).drop n, h)))

/-- Fold a list of routes into an initially empty tree with
`add_route_by_path`; `none` if any insertion conflicts. -/
def insertAll {T : Type} (rs : List (List String × T)) : Option (RoutingNode T) :=
  rs.foldlM (fun t r => add_route_by_path t r.1 r.2) (RoutingNode.node none [])

/-- The value the route set `rs` holds at normalized path `q`: the
first route whose normalized path equals `q`. -/
def routeValue {T : Type} (rs : List (List String × T)) (q : List String) :
    Option T :=
  (rs.find? (fun r => decide (normSegs r.1 = q))).map (fun r => r.2)

/-- Modelled from the claim, on the route set: the length of the
longest prefix of `l` that is a normalized inserted route. -/
def bestRouteLen {T : Type} (rs : List (List String × T)) (l : List String) :
    Option Nat :=
  findGreatestB (fun n => (routeValue rs (l.take n)).isSome) l.length

/-- Modelled from the claim, on the route set: the value inserted at
the longest normalized prefix of the path present in the route set,
paired with the remaining segments after that prefix. -/
def matchSpecRoutes {T : Type} (rs : List (List String × T))
    (path : List String) : Option (List String × T) :=
  (bestRouteLen rs (normSegs path)).bind
    (fun n => (routeValue rs ((normSegs path).take n)).map
      (fun h => ((normSegs path).drop n, h)))

theorem assocGet_assocUpdate_self {T : Type} (m : List (String × RoutingNode T))
    (k : String) (c : RoutingNode T) :
    assocGet (assocUpdate m k c) k = some c := by
  induction m with
  | nil => simp [assocUpdate, assocGet]
  | cons kv rest ih =>
    obtain ⟨k', v'⟩ := kv
    by_cases h : k' = k
    · subst h; simp [assocUpdate, assocGet]
    · simp [assocUpdate, assocGet, h, ih]

theorem assocGet_assocUpdate_ne {T : Type} (m : List (String × RoutingNode T))
    (k k' : String) (c : RoutingNode T) (h : k' ≠ k) :
    assocGet (assocUpdate m k c) k' = assocGet m k' := by
  induction m with
  | nil => simp [assocUpdate, assocGet, Ne.symm h]
  | cons kv rest ih =>
    obtain ⟨k0, v0⟩ := kv
    by_cases h0 : k0 = k
    · subst h0
      simp [assocUpdate, assocGet, Ne.symm h]
    · simp [assocUpdate, assocGet, h0, ih]

theorem valueAt_empty {T : Type} (r : List String) :
    valueAt (RoutingNode.node (none : Option T) []) r = none := by
  cases r with
  | nil => rfl
  | cons s rest => simp [valueAt, assocGet, RoutingNode.children]

/-- The effect of a successful `add_route_by_path` on `valueAt`: the
inserted value appears exactly at the normalized inserted path, and no
other path changes. -/
theorem valueAt_add_route {T : Type} (q : List String) :
    ∀ (t t' : RoutingNode T) (v : T), add_route_by_path t q v = some t' →
      ∀ r, valueAt t' r = if r = normSegs q then some v else valueAt t r := by
  induction q with
  | nil =>
    intro t t' v h r
    cases t with
    | node tv m =>
      cases tv with
      | some x => simp [add_route_by_path] at h
      | none =>
        simp only [add_route_by_path, Option.some.injEq] at h
        subst h
        cases r with
        | nil => simp [valueAt, RoutingNode.value, normSegs]
        | cons rs rr =>
          simp [valueAt, RoutingNode.children, normSegs]
  | cons seg qrest ih =>
    intro t t' v h r
    by_cases hseg : seg = ""
    · subst hseg
      simp only [add_route_by_path, if_pos rfl] at h
      have := ih t t' v h r
      simpa [normSegs] using this
    · cases t with
      | node tv m =>
        simp only [add_route_by_path, if_neg hseg, Option.map_eq_some'] at h
        obtain ⟨c, hc, ht'⟩ := h
        subst ht'
        have hnorm : normSegs (seg :: qrest) = seg :: normSegs qrest := by
          simp [normSegs, hseg]
        cases r with
        | nil =>
          rw [if_neg (by simp [hnorm])]
          simp [valueAt, RoutingNode.value]
        | cons rseg rrest =>
          by_cases hr : rseg = seg
          · subst hr
            have hl : valueAt (RoutingNode.node tv (assocUpdate m rseg c))
                (rseg :: rrest) = valueAt c rrest := by
              simp [valueAt, RoutingNode.children, assocGet_assocUpdate_self]
            rw [hl, ih _ c v hc rrest]
            by_cases hq : rrest = normSegs qrest
            · rw [if_pos hq, if_pos (by rw [hnorm, hq])]
            · rw [if_neg hq, if_neg (by rw [hnorm]; simp [hq])]
              cases hg : assocGet m rseg with
              | some ch =>
                simp [valueAt, RoutingNode.children, hg]
              | none =>
                simp [valueAt, RoutingNode.children, hg, valueAt_empty]
          · have hl : valueAt (RoutingNode.node tv (assocUpdate m seg c))
                (rseg :: rrest) =
                valueAt (RoutingNode.node tv m) (rseg :: rrest) := by
              simp [valueAt, RoutingNode.children,
                assocGet_assocUpdate_ne m seg rseg c hr]
            rw [hl, if_neg (by rw [hnorm]; simp [hr])]

/-- A route can only be added where no value is stored yet: if the
tree already holds a value at the normalized path, `add_route_by_path`
returns the conflict error. -/
theorem add_route_of_valueAt_some {T : Type} (q : List String) :
    ∀ (t : RoutingNode T) (x w : T), valueAt t (normSegs q) = some x →
      add_route_by_path t q w = none := by
  induction q with
  | nil =>
    intro t x w h
    cases t with
    | node tv m =>
      simp only [normSegs, List.filter_nil, valueAt, RoutingNode.value] at h
      subst h
      simp [add_route_by_path]
  | cons seg qrest ih =>
    intro t x w h
    by_cases hseg : seg = ""
    · subst hseg
      have hh : normSegs ("" :: qrest) = normSegs qrest := by simp [normSegs]
      rw [hh] at h
      simp only [add_route_by_path, if_pos rfl]
      exact ih t x w h
    · cases t with
      | node tv m =>
        have hnorm : normSegs (seg :: qrest) = seg :: normSegs qrest := by
          simp [normSegs, hseg]
        rw [hnorm] at h
        simp only [valueAt, RoutingNode.children] at h
        cases hg : assocGet m seg with
        | none => rw [hg] at h; simp at h
        | some ch =>
          rw [hg] at h
          simp only [add_route_by_path, if_neg hseg, hg, Option.getD_some]
          rw [ih ch x w h]
          rfl

/-- C9: inserting a value at a path whose normalized segments coincide
with those of an already (successfully) inserted route fails with
`ConflictingRouteError` (modelled as `none`). -/
theorem add_route_twice_conflicts {T : Type} (t t' : RoutingNode T)
    (p₁ p₂ : List String) (v w : T) (hn : normSegs p₁ = normSegs p₂)
    (h : add_route_by_path t p₁ v = some t') :
    add_route_by_path t' p₂ w = none := by
  apply add_route_of_valueAt_some p₂ t' v w
  rw [← hn, valueAt_add_route p₁ t t' v h, if_pos rfl]

theorem add_route_twice_conflicts_witness :
    add_route_by_path (RoutingNode.node none []) ["a"] (1 : Nat) =
      some (RoutingNode.node none [("a", RoutingNode.node (some 1) [])]) ∧
    add_route_by_path
      (RoutingNode.node none [("a", RoutingNode.node (some 1) [])]) ["a"]
      (2 : Nat) = none := by
  refine ⟨rfl, ?_⟩
  exact add_route_twice_conflicts (RoutingNode.node none [])
    (RoutingNode.node none [("a", RoutingNode.node (some 1) [])])
    ["a"] ["a"] 1 2 rfl rfl

theorem findGreatestB_shift (p q : Nat → Bool) (k : Nat)
    (h : ∀ i ≤ k, q (i + 1) = p i) :
    findGreatestB q (k + 1) =
      match findGreatestB p k with
      | some n => some (n + 1)
      | none => if q 0 then some 0 else none := by
  induction k with
  | zero =>
    simp only [findGreatestB, h 0 (Nat.le_refl 0)]
    cases hp : p 0 <;> simp [hp]
  | succ m ih =>
    have hsucc := h (m + 1) (Nat.le_refl _)
    have ihm := ih (fun i hi => h i (Nat.le_succ_of_le hi))
    show (if q (m + 1 + 1) = true then some (m + 1 + 1) else findGreatestB q (m + 1)) =
      match findGreatestB p (m + 1) with
      | some n => some (n + 1)
      | none => if q 0 = true then some 0 else none
    rw [hsucc]
    cases hp : p (m + 1)
    · rw [if_neg (by simp), ihm,
        show findGreatestB p (m + 1) = findGreatestB p m by simp [findGreatestB, hp]]
    · rw [if_pos rfl,
        show findGreatestB p (m + 1) = some (m + 1) by simp [findGreatestB, hp]]

theorem findGreatestB_high_false (q : Nat → Bool) (n : Nat)
    (h : ∀ i, 1 ≤ i → i ≤ n → q i = false) :
    findGreatestB q n = if q 0 then some 0 else none := by
  induction n with
  | zero => simp [findGreatestB]
  | succ m ih =>
    simp only [findGreatestB]
    rw [h (m + 1) (by omega) (Nat.le_refl _)]
    simp only [Bool.false_eq_true, if_false]
    exact ih (fun i h1 h2 => h i h1 (by omega))

theorem bestPrefixLen_cons_child {T : Type} (tv : Option T)
    (m : List (String × RoutingNode T)) (seg : String) (child : RoutingNode T)
    (rest : List String) (hc : assocGet m seg = some child) :
    bestPrefixLen (RoutingNode.node tv m) (seg :: rest) =
      match bestPrefixLen child rest with
      | some n => some (n + 1)
      | none => if tv.isSome then some 0 else none := by
  unfold bestPrefixLen
  have hs := findGreatestB_shift
    (fun n => (valueAt child (rest.take n)).isSome)
    (fun n => (valueAt (RoutingNode.node tv m) ((seg :: rest).take n)).isSome)
    rest.length
    (fun i _ => by simp [valueAt, RoutingNode.children, hc])
  simp only [List.length_cons]
  rw [hs]
  simp [valueAt, RoutingNode.value]

theorem bestPrefixLen_cons_nochild {T : Type} (tv : Option T)
    (m : List (String × RoutingNode T)) (seg : String) (rest : List String)
    (hc : assocGet m seg = none) :
    bestPrefixLen (RoutingNode.node tv m) (seg :: rest) =
      if tv.isSome then some 0 else none := by
  unfold bestPrefixLen
  rw [findGreatestB_high_false _ _ ?hf]
  · simp [valueAt, RoutingNode.value]
  case hf =>
    intro i h1 _
    cases i with
    | zero => omega
    | succ j => simp [valueAt, RoutingNode.children, hc]

/-- Characterization of the `match_path` loop: the result is the value
at the longest prefix of the remaining path at which the subtree holds
a value (with trailing segments the rest of the path), falling back to
the accumulated `last`/`since` state. -/
theorem matchLoop_eq {T : Type} (l : List String) :
    ∀ (t : RoutingNode T) (since : List String) (last : Option T),
      matchLoop t l since last =
        match bestPrefixLen t l with
        | some n => (valueAt t (l.take n)).map (fun h => (l.drop n, h))
        | none => last.map (fun h => (since ++ l, h)) := by
  induction l with
  | nil =>
    intro t since last
    cases t with
    | node tv m =>
      cases tv with
      | some h0 =>
        simp [matchLoop, bestPrefixLen, findGreatestB, valueAt,
          RoutingNode.value]
      | none =>
        simp [matchLoop, bestPrefixLen, findGreatestB, valueAt,
          RoutingNode.value]
  | cons seg rest ih =>
    intro t since last
    cases t with
    | node tv m =>
      cases hg : assocGet m seg with
      | some child =>
        have hl : matchLoop (RoutingNode.node tv m) (seg :: rest) since last =
            matchLoop child rest
              ((if tv.isSome then [] else since) ++ [seg])
              (if tv.isSome then tv else last) := by
          simp [matchLoop, RoutingNode.children, RoutingNode.value, hg]
        rw [hl, ih child _ _, bestPrefixLen_cons_child tv m seg child rest hg]
        cases hb : bestPrefixLen child rest with
        | some n =>
          simp [valueAt, RoutingNode.children, hg]
        | none =>
          cases tv with
          | some h0 => simp [valueAt, RoutingNode.value]
          | none => simp [valueAt, RoutingNode.value]
      | none =>
        have hl : matchLoop (RoutingNode.node tv m) (seg :: rest) since last =
            (if tv.isSome then tv else last).map
              (fun h => ((if tv.isSome then [] else since) ++ seg :: rest, h)) := by
          simp [matchLoop, RoutingNode.children, RoutingNode.value, hg]
        rw [hl, bestPrefixLen_cons_nochild tv m seg rest hg]
        cases tv with
        | some h0 => simp [valueAt, RoutingNode.value]
        | none => simp [valueAt, RoutingNode.value]

/-- `match_path` agrees with the longest-prefix specification on any
tree. -/
theorem match_path_eq_matchSpec {T : Type} (t : RoutingNode T)
    (p : List String) : match_path t p = matchSpec t p := by
  unfold match_path matchSpec
  rw [show p.filter (fun s => s ≠ "") = normSegs p from rfl]
  rw [matchLoop_eq (normSegs p) t [] none]
  cases hb : bestPrefixLen t (normSegs p) <;> simp

/-- After a successful fold of insertions starting from `t0`, the value
at any normalized path is the one from `t0` or, failing that, the one
contributed by the inserted routes. -/
theorem valueAt_foldlM_insert {T : Type} (rs : List (List String × T)) :
    ∀ (t0 t : RoutingNode T),
      rs.foldlM (fun t r => add_route_by_path t r.1 r.2) t0 = some t →
      ∀ q, valueAt t q = (valueAt t0 q).orElse (fun _ => routeValue rs q) := by
  induction rs with
  | nil =>
    intro t0 t h q
    simp only [List.foldlM_nil, pure, Option.some.injEq] at h
    subst h
    cases hv : valueAt t0 q <;> simp [routeValue, Option.orElse]
  | cons r rest ih =>
    intro t0 t h q
    simp only [List.foldlM_cons, Option.bind_eq_bind, Option.bind_eq_some] at h
    obtain ⟨t1, ht1, hrest⟩ := h
    have hv0 : valueAt t0 (normSegs r.1) = none := by
      cases hv : valueAt t0 (normSegs r.1) with
      | none => rfl
      | some x =>
        rw [add_route_of_valueAt_some r.1 t0 x r.2 hv] at ht1
        exact Option.noConfusion ht1
    have h1 := valueAt_add_route r.1 t0 t1 r.2 ht1
    have hroute : routeValue (r :: rest) q =
        if normSegs r.1 = q then some r.2 else routeValue rest q := by
      by_cases hq : normSegs r.1 = q
      · simp [routeValue, List.find?_cons, hq]
      · simp [routeValue, List.find?_cons, hq]
    rw [ih t1 t hrest q, h1 q, hroute]
    by_cases hq : normSegs r.1 = q
    · rw [if_pos hq, if_pos hq.symm, ← hq, hv0]
      simp [Option.orElse]
    · rw [if_neg hq, if_neg (fun hh => hq hh.symm)]

/-- On a tree built by `insertAll`, `valueAt` is exactly the route
set's `routeValue`. -/
theorem valueAt_insertAll {T : Type} (rs : List (List String × T))
    (t : RoutingNode T) (h : insertAll rs = some t) (q : List String) :
    valueAt t q = routeValue rs q := by
  have := valueAt_foldlM_insert rs (RoutingNode.node none []) t h q
  simpa [valueAt_empty, Option.orElse] using this

/-- C5: on a tree built by successfully inserting the route set `rs`,
`match_path` returns the value inserted at the longest normalized
prefix of the lookup path present in `rs` together with the remaining
segments after that prefix, and no match when no inserted route is a
prefix of the path. -/
theorem match_path_longest_route {T : Type} (rs : List (List String × T))
    (t : RoutingNode T) (p : List String) (h : insertAll rs = some t) :
    match_path t p = matchSpecRoutes rs p := by
  rw [match_path_eq_matchSpec]
  unfold matchSpec matchSpecRoutes bestPrefixLen bestRouteLen
  simp only [valueAt_insertAll rs t h]

theorem match_path_longest_route_witness :
    insertAll [(["a"], (1 : Nat)), (["a", "b"], 2)] =
      some (RoutingNode.node none
        [("a", RoutingNode.node (some 1) [("b", RoutingNode.node (some 2) [])])]) ∧
    match_path
      (RoutingNode.node none
        [("a", RoutingNode.node (some 1) [("b", RoutingNode.node (some 2) [])])])
      ["a", "b", "c"] =
      matchSpecRoutes [(["a"], (1 : Nat)), (["a", "b"], 2)] ["a", "b", "c"] ∧
    matchSpecRoutes [(["a"], (1 : Nat)), (["a", "b"], 2)] ["a", "b", "c"] =
      some (["c"], 2) := by
  refine ⟨rfl, ?_, rfl⟩
  exact match_path_longest_route [(["a"], (1 : Nat)), (["a", "b"], 2)]
    (RoutingNode.node none
      [("a", RoutingNode.node (some 1) [("b", RoutingNode.node (some 2) [])])])
    ["a", "b", "c"] rfl

/-! ## Document (src/types/document.rs)

The safe `text/gemini` builder.  Strings are `List Char`.  A link's
`uri` argument is modelled as the display string of the already-parsed
`URIReference` (or of the `.` fallback); URI parsing itself happens in
the external uriparse crate and is out of scope. -/

/-- `str::split('\n')`: always at least one part; no part contains a
newline. -/
def splitNl : List Char → List (List Char)
  | [] => [[]]
  | c :: rest =>
    if c = '\n' then [] :: splitNl rest
    else
      match splitNl rest with
      | p :: ps => (c :: p) :: ps
      | [] => [[c]]

/-- Strip one trailing `'\r'` (the `\r\n` handling of `str::lines`). -/
def stripTrailCR (l : List Char) : List Char :=
  if l.getLast? = some '\r' then l.dropLast else l

/-- `str::lines()`: split on `'\n'`, drop the optional empty part after
a final line terminator, strip one `'\r'` from every part that was
followed by a `'\n'`. -/
def rustLines (s : List Char) : List (List Char) :=
  match (splitNl s).getLast? with
  | some [] => (splitNl s).dropLast.map stripTrailCR
  | some last => (splitNl s).dropLast.map stripTrailCR ++ [last]
  | none => (splitNl s).dropLast.map stripTrailCR

/-- `starts_with_any`. -/
def startsWithAny (s : List Char) (starts : List (List Char)) : Bool :=
  starts.any (fun p => p.isPrefixOf s)

/-- `lossy_escaped_line`: a line with no newline and no escapable
start is returned unchanged; otherwise a space is prepended when an
escapable start is present, and only the part before the first newline
is kept. -/
def lossy_escaped_line (line : List Char) (escape_starts : List (List Char)) :
    List Char :=
  if '\n' ∉ line ∧ startsWithAny line escape_starts = false then line
  else
    (if startsWithAny line escape_starts then [' '] else []) ++
      (splitNl line).headD []

/-- `Vec::join(" ")`. -/
def joinSpace : List (List Char) → List Char
  | [] => []
  | [p] => p
  | p :: q :: ps => p ++ ' ' :: joinSpace (q :: ps)

/-- `strip_newlines`: when a `'\r'` or `'\n'` is present, join the
nonempty lines with single spaces; otherwise return the text
unchanged. -/
def strip_newlines (text : List Char) : List Char :=
  if '\r' ∈ text ∨ '\n' ∈ text then
    joinSpace ((rustLines text).filter (fun p => p ≠ []))
  else text

/-- `LINK_START`. -/
def LINK_START : List Char := ['=', '>']

/-- The backtick character (obtained from a string literal). -/
def BACKTICK : Char := "`".toList.headD ' '

/-- `PREFORMATTED_TOGGLE_START` (three backticks). -/
def PREFORMATTED_TOGGLE_START : List Char := [BACKTICK, BACKTICK, BACKTICK]

/-- `HEADING_START`. -/
def HEADING_START : List Char := ['#']

/-- `UNORDERED_LIST_ITEM_START`. -/
def UNORDERED_LIST_ITEM_START : List Char := ['*']

/-- `QUOTE_START`. -/
def QUOTE_START : List Char := ['>']

/-- `SPECIAL_STARTS`. -/
def SPECIAL_STARTS : List (List Char) :=
  [LINK_START, PREFORMATTED_TOGGLE_START, HEADING_START,
    UNORDERED_LIST_ITEM_START, QUOTE_START]

/-- `HeadingLevel`. -/
inductive HeadingLevel where
  | h1
  | h2
  | h3

/-- A `Document` item; the stored strings are the ones produced by the
constructors' normalization. -/
inductive Item where
  | text (s : List Char)
  | link (uri : List Char) (label : Option (List Char))
  | preformatted (alt : List Char) (lines : List (List Char))
  | heading (level : HeadingLevel) (text : List Char)
  | unorderedListItem (s : List Char)
  | quote (s : List Char)

/-- `Document`. -/
structure Document where
  items : List Item

/-- `Document::add_text`: split into lines, escape each with
`Text::new_lossy`. -/
def add_text (d : Document) (text : List Char) : Document :=
  ⟨d.items ++ (rustLines text).map
    (fun l => Item.text (lossy_escaped_line l SPECIAL_STARTS))⟩

/-- `Document::add_blank_line`. -/
def add_blank_line (d : Document) : Document :=
  ⟨d.items ++ [Item.text []]⟩

/-- `Document::add_link` (the `uri` is the rendered URI reference). -/
def add_link (d : Document) (uri : List Char) (label : List Char) : Document :=
  ⟨d.items ++ [Item.link uri (some (strip_newlines label))]⟩

/-- `Document::add_link_without_label`. -/
def add_link_without_label (d : Document) (uri : List Char) : Document :=
  ⟨d.items ++ [Item.link uri none]⟩

/-- `Document::add_preformatted_with_alt`. -/
def add_preformatted_with_alt (d : Document) (alt text : List Char) : Document :=
  ⟨d.items ++ [Item.preformatted (strip_newlines alt)
    ((rustLines text).map
      (fun l => lossy_escaped_line l [PREFORMATTED_TOGGLE_START]))]⟩

/-- `Document::add_preformatted`. -/
def add_preformatted (d : Document) (text : List Char) : Document :=
  add_preformatted_with_alt d [] text

/-- `Document::add_heading`. -/
def add_heading (d : Document) (level : HeadingLevel) (text : List Char) :
    Document :=
  ⟨d.items ++ [Item.heading level (strip_newlines text)]⟩

/-- `Document::add_unordered_list_item`. -/
def add_unordered_list_item (d : Document) (text : List Char) : Document :=
  ⟨d.items ++ [Item.unorderedListItem (strip_newlines text)]⟩

/-- `Document::add_quote`. -/
def add_quote (d : Document) (text : List Char) : Document :=
  ⟨d.items ++ (rustLines text).map
    (fun l => Item.quote (lossy_escaped_line l [QUOTE_START]))⟩

/-- The `#` sequence of a heading level. -/
def levelChars : HeadingLevel → List Char
  | HeadingLevel.h1 => ['#']
  | HeadingLevel.h2 => ['#', '#']
  | HeadingLevel.h3 => ['#', '#', '#']

/-- One item's `fmt::Display` output: each `writeln!` emits the line
followed by `'\n'`. -/
def renderItem : Item → List Char
  | Item.text s => s ++ ['\n']
  | Item.link uri lbl =>
    LINK_START ++ [' '] ++ uri ++
      (match lbl with
       | some l => ' ' :: l
       | none => []) ++ ['\n']
  | Item.preformatted alt lines =>
    PREFORMATTED_TOGGLE_START ++ alt ++ ['\n'] ++
      (lines.map (fun l => l ++ ['\n'])).flatten ++
      PREFORMATTED_TOGGLE_START ++ ['\n']
  | Item.heading lvl t => levelChars lvl ++ ' ' :: t ++ ['\n']
  | Item.unorderedListItem s => '*' :: ' ' :: s ++ ['\n']
  | Item.quote s => '>' :: ' ' :: s ++ ['\n']

/-- `Document`'s `fmt::Display`: the items in order. -/
def render (d : Document) : List Char := (d.items.map renderItem).flatten

/-- The constructor a serialized line originates from. -/
inductive LineOrigin where
  | textLine
  | linkLine
  | preToggle
  | preBody
  | headingLine
  | listLine
  | quoteLine
deriving DecidableEq

/-- One item's output lines, labeled with their origin. -/
def itemLines : Item → List (LineOrigin × List Char)
  | Item.text s => [(LineOrigin.textLine, s)]
  | Item.link uri lbl =>
    [(LineOrigin.linkLine, LINK_START ++ [' '] ++ uri ++
      (match lbl with
       | some l => ' ' :: l
       | none => []))]
  | Item.preformatted alt lines =>
    (LineOrigin.preToggle, PREFORMATTED_TOGGLE_START ++ alt) ::
      (lines.map (fun l => (LineOrigin.preBody, l)) ++
        [(LineOrigin.preToggle, PREFORMATTED_TOGGLE_START)])
  | Item.heading lvl t => [(LineOrigin.headingLine, levelChars lvl ++ ' ' :: t)]
  | Item.unorderedListItem s => [(LineOrigin.listLine, '*' :: ' ' :: s)]
  | Item.quote s => [(LineOrigin.quoteLine, '>' :: ' ' :: s)]

/-- All output lines of a document, labeled with their origins. -/
def docLines (d : Document) : List (LineOrigin × List Char) :=
  (d.items.map itemLines).flatten

/-- The constructor to which each reserved line prefix belongs. -/
def originOf (r : List Char) : LineOrigin :=
  if r = LINK_START then LineOrigin.linkLine
  else if r = PREFORMATTED_TOGGLE_START then LineOrigin.preToggle
  else if r = HEADING_START then LineOrigin.headingLine
  else if r = UNORDERED_LIST_ITEM_START then LineOrigin.listLine
  else LineOrigin.quoteLine

/-- Safety of one output line: it contains no newline; a preformatted
inner line does not start with the toggle (in particular it is not
```` ``` ````); any other line starting with a reserved prefix was
produced by that prefix's constructor. -/
def lineOk : LineOrigin × List Char → Prop
  | (LineOrigin.preBody, s) =>
    '\n' ∉ s ∧ PREFORMATTED_TOGGLE_START.isPrefixOf s = false
  | (o, s) =>
    '\n' ∉ s ∧ ∀ r ∈ SPECIAL_STARTS, r.isPrefixOf s = true → originOf r = o

/-- The public builder calls. -/
inductive Op where
  | opText (s : List Char)
  | opBlank
  | opLink (uri label : List Char)
  | opLinkNoLabel (uri : List Char)
  | opPre (text : List Char)
  | opPreAlt (alt text : List Char)
  | opHeading (level : HeadingLevel) (text : List Char)
  | opListItem (text : List Char)
  | opQuote (text : List Char)

/-- Apply one builder call. -/
def applyOp (d : Document) : Op → Document
  | Op.opText s => add_text d s
  | Op.opBlank => add_blank_line d
  | Op.opLink uri label => add_link d uri label
  | Op.opLinkNoLabel uri => add_link_without_label d uri
  | Op.opPre text => add_preformatted d text
  | Op.opPreAlt alt text => add_preformatted_with_alt d alt text
  | Op.opHeading lvl text => add_heading d lvl text
  | Op.opListItem text => add_unordered_list_item d text
  | Op.opQuote text => add_quote d text

/-- Build a document from scratch through the public API. -/
def buildDoc (ops : List Op) : Document := ops.foldl applyOp ⟨[]⟩

/-- What the external URI parser guarantees about a link's rendered
URI: it contains no newline (uriparse rejects control characters). -/
def opUriOk : Op → Prop
  | Op.opLink uri _ => '\n' ∉ uri
  | Op.opLinkNoLabel uri => '\n' ∉ uri
  | _ => True

theorem splitNl_ne_nil (s : List Char) : splitNl s ≠ [] := by
  cases s with
  | nil => simp [splitNl]
  | cons c rest =>
    by_cases hc : c = '\n'
    · simp [splitNl, hc]
    · simp only [splitNl, if_neg hc]
      cases splitNl rest <;> simp

theorem no_nl_of_mem_splitNl (s : List Char) :
    ∀ p ∈ splitNl s, '\n' ∉ p := by
  induction s with
  | nil =>
    intro p hp
    simp only [splitNl, List.mem_singleton] at hp
    simp [hp]
  | cons c rest ih =>
    intro p hp
    by_cases hc : c = '\n'
    · subst hc
      rw [show splitNl ('\n' :: rest) = [] :: splitNl rest by simp [splitNl]] at hp
      rcases List.mem_cons.mp hp with h | h
      · simp [h]
      · exact ih p h
    · simp only [splitNl, if_neg hc] at hp
      cases hsp : splitNl rest with
      | nil => exact absurd hsp (splitNl_ne_nil rest)
      | cons q qs =>
        rw [hsp] at hp
        simp only [List.mem_cons] at hp
        rcases hp with h | h
        · subst h
          intro hmem
          simp only [List.mem_cons] at hmem
          rcases hmem with h | h
          · exact hc h.symm
          · exact ih q (by rw [hsp]; exact List.mem_cons_self q qs) h
        · exact ih p (by rw [hsp]; exact List.mem_cons_of_mem q h)

theorem splitNl_headD_isPrefixOf (s : List Char) :
    ((splitNl s).headD []).isPrefixOf s = true := by
  induction s with
  | nil => rfl
  | cons c rest ih =>
    by_cases hc : c = '\n'
    · simp [splitNl, hc, List.isPrefixOf]
    · simp only [splitNl, if_neg hc]
      cases hsp : splitNl rest with
      | nil => exact absurd hsp (splitNl_ne_nil rest)
      | cons q qs =>
        rw [hsp] at ih
        simp only [List.headD_cons] at ih ⊢
        simp [List.isPrefixOf, ih]

theorem no_nl_of_mem_rustLines (s : List Char) :
    ∀ p ∈ rustLines s, '\n' ∉ p := by
  have hparts := no_nl_of_mem_splitNl s
  have hbody : ∀ q ∈ (splitNl s).dropLast.map stripTrailCR, '\n' ∉ q := by
    intro q hq
    simp only [List.mem_map] at hq
    obtain ⟨q0, hq0, rfl⟩ := hq
    have hq0' : q0 ∈ splitNl s := (List.dropLast_sublist _).subset hq0
    have hnl := hparts q0 hq0'
    unfold stripTrailCR
    by_cases hlast : q0.getLast? = some '\r'
    · rw [if_pos hlast]
      intro hm
      exact hnl ((List.dropLast_sublist q0).subset hm)
    · rw [if_neg hlast]
      exact hnl
  intro p hp
  unfold rustLines at hp
  cases hl : (splitNl s).getLast? with
  | none =>
    rw [hl] at hp
    exact hbody p hp
  | some last =>
    rw [hl] at hp
    cases last with
    | nil => exact hbody p hp
    | cons a as =>
      simp only [List.mem_append, List.mem_singleton] at hp
      rcases hp with h | h
      · exact hbody p h
      · subst h
        exact hparts _ (List.mem_of_mem_getLast? hl)

theorem startsWithAny_eq_false (s : List Char) (starts : List (List Char))
    (h : ∀ r ∈ starts, r.isPrefixOf s = false) :
    startsWithAny s starts = false := by
  unfold startsWithAny
  rw [List.any_eq_false]
  intro r hr
  simp [h r hr]

theorem startsWithAny_false_elim (s : List Char) (starts : List (List Char))
    (h : startsWithAny s starts = false) (r : List Char) (hr : r ∈ starts) :
    r.isPrefixOf s = false := by
  unfold startsWithAny at h
  rw [List.any_eq_false] at h
  exact Bool.eq_false_iff.mpr (h r hr)

theorem isPrefixOf_trans {a b c : List Char} (h1 : a.isPrefixOf b = true)
    (h2 : b.isPrefixOf c = true) : a.isPrefixOf c = true := by
  rw [List.isPrefixOf_iff_prefix] at h1 h2 ⊢
  exact h1.trans h2

theorem isPrefixOf_cons_head {c c' : Char} {cs s : List Char}
    (h : (c == c') = false) : (c :: cs).isPrefixOf (c' :: s) = false := by
  simp only [List.isPrefixOf, h, Bool.false_and]

theorem lossy_escaped_line_no_nl (line : List Char)
    (starts : List (List Char)) : '\n' ∉ lossy_escaped_line line starts := by
  unfold lossy_escaped_line
  by_cases h : '\n' ∉ line ∧ startsWithAny line starts = false
  · rw [if_pos h]
    exact h.1
  · rw [if_neg h]
    intro hm
    simp only [List.mem_append] at hm
    rcases hm with hm | hm
    · by_cases hs : startsWithAny line starts = true
      · rw [if_pos hs] at hm
        simp at hm
      · rw [if_neg hs] at hm
        simp at hm
    · cases hsp : splitNl line with
      | nil => exact absurd hsp (splitNl_ne_nil line)
      | cons q qs =>
        rw [hsp] at hm
        exact no_nl_of_mem_splitNl line q
          (by rw [hsp]; exact List.mem_cons_self q qs) hm

theorem lossy_escaped_line_not_special (line : List Char)
    (starts : List (List Char))
    (hs : ∀ r ∈ starts, ∃ c cs, r = c :: cs ∧ c ≠ ' ') :
    startsWithAny (lossy_escaped_line line starts) starts = false := by
  unfold lossy_escaped_line
  by_cases h : '\n' ∉ line ∧ startsWithAny line starts = false
  · rw [if_pos h]
    exact h.2
  · rw [if_neg h]
    by_cases hsp : startsWithAny line starts = true
    · rw [if_pos hsp]
      apply startsWithAny_eq_false
      intro r hr
      obtain ⟨c, cs, rfl, hc⟩ := hs r hr
      exact isPrefixOf_cons_head (by simpa using hc)
    · rw [if_neg hsp]
      apply startsWithAny_eq_false
      intro r hr
      simp only [List.nil_append]
      by_cases hrp : r.isPrefixOf ((splitNl line).headD []) = true
      · have : r.isPrefixOf line = true :=
          isPrefixOf_trans hrp (splitNl_headD_isPrefixOf line)
        have hfalse := startsWithAny_false_elim line starts
          (by simpa using hsp) r hr
        rw [this] at hfalse
        exact absurd hfalse (by simp)
      · exact Bool.eq_false_iff.mpr hrp

theorem joinSpace_no_nl (ps : List (List Char)) (h : ∀ p ∈ ps, '\n' ∉ p) :
    '\n' ∉ joinSpace ps := by
  induction ps with
  | nil => simp [joinSpace]
  | cons p qs ih =>
    cases qs with
    | nil => simpa [joinSpace] using h p (List.mem_cons_self p [])
    | cons q rs =>
      intro hm
      simp only [joinSpace, List.mem_append, List.mem_cons] at hm
      rcases hm with hm | hm | hm
      · exact h p (List.mem_cons_self _ _) hm
      · exact (by decide : ('\n' : Char) ≠ ' ') hm
      · exact ih (fun r hr => h r (List.mem_cons_of_mem p hr)) hm

theorem strip_newlines_no_nl (t : List Char) : '\n' ∉ strip_newlines t := by
  unfold strip_newlines
  by_cases h : '\r' ∈ t ∨ '\n' ∈ t
  · rw [if_pos h]
    apply joinSpace_no_nl
    intro p hp
    exact no_nl_of_mem_rustLines t p (List.mem_of_mem_filter hp)
  · rw [if_neg h]
    intro hm
    exact h (Or.inr hm)

theorem specialStarts_shape :
    ∀ r ∈ SPECIAL_STARTS, ∃ c cs, r = c :: cs ∧ c ≠ ' ' := by
  intro r hr
  simp only [SPECIAL_STARTS, List.mem_cons, List.not_mem_nil, or_false] at hr
  rcases hr with rfl | rfl | rfl | rfl | rfl
  · exact ⟨'=', ['>'], rfl, by decide⟩
  · exact ⟨BACKTICK, [BACKTICK, BACKTICK], rfl, by decide⟩
  · exact ⟨'#', [], rfl, by decide⟩
  · exact ⟨'*', [], rfl, by decide⟩
  · exact ⟨'>', [], rfl, by decide⟩

theorem text_escaped_ok (line : List Char) :
    lineOk (LineOrigin.textLine, lossy_escaped_line line SPECIAL_STARTS) := by
  refine ⟨lossy_escaped_line_no_nl line SPECIAL_STARTS, ?_⟩
  intro r hr hpre
  have hf := startsWithAny_false_elim _ SPECIAL_STARTS
    (lossy_escaped_line_not_special line SPECIAL_STARTS specialStarts_shape) r hr
  rw [hpre] at hf
  exact Bool.noConfusion hf

theorem blank_text_ok : lineOk (LineOrigin.textLine, ([] : List Char)) := by
  refine ⟨by simp, ?_⟩
  intro r hr hpre
  obtain ⟨c, cs, rfl, _⟩ := specialStarts_shape r hr
  simp [List.isPrefixOf] at hpre

theorem link_line_ok (rest : List Char) (h : '\n' ∉ rest) :
    lineOk (LineOrigin.linkLine, '=' :: '>' :: ' ' :: rest) := by
  refine ⟨?_, ?_⟩
  · intro hm
    rcases List.mem_cons.mp hm with hm | hm
    · exact absurd hm (by decide)
    rcases List.mem_cons.mp hm with hm | hm
    · exact absurd hm (by decide)
    rcases List.mem_cons.mp hm with hm | hm
    · exact absurd hm (by decide)
    exact h hm
  · intro r hr hpre
    simp only [SPECIAL_STARTS, List.mem_cons, List.not_mem_nil, or_false] at hr
    rcases hr with rfl | rfl | rfl | rfl | rfl
    · decide
    · rw [show PREFORMATTED_TOGGLE_START = BACKTICK :: [BACKTICK, BACKTICK] from rfl,
        isPrefixOf_cons_head (by decide)] at hpre
      exact Bool.noConfusion hpre
    · rw [show HEADING_START = '#' :: [] from rfl,
        isPrefixOf_cons_head (by decide)] at hpre
      exact Bool.noConfusion hpre
    · rw [show UNORDERED_LIST_ITEM_START = '*' :: [] from rfl,
        isPrefixOf_cons_head (by decide)] at hpre
      exact Bool.noConfusion hpre
    · rw [show QUOTE_START = '>' :: [] from rfl,
        isPrefixOf_cons_head (by decide)] at hpre
      exact Bool.noConfusion hpre

theorem link_item_ok (uri : List Char) (lbl : Option (List Char))
    (hu : '\n' ∉ uri) (hl : ∀ l, lbl = some l → '\n' ∉ l) :
    ∀ x ∈ itemLines (Item.link uri lbl), lineOk x := by
  cases lbl with
  | none =>
    intro x hx
    simp only [itemLines, List.mem_singleton] at hx
    subst hx
    rw [show LINK_START ++ [' '] ++ uri ++ ([] : List Char) =
        '=' :: '>' :: ' ' :: uri by simp [LINK_START]]
    exact link_line_ok uri hu
  | some l =>
    intro x hx
    simp only [itemLines, List.mem_singleton] at hx
    subst hx
    rw [show LINK_START ++ [' '] ++ uri ++ (' ' :: l) =
        '=' :: '>' :: ' ' :: (uri ++ ' ' :: l) by simp [LINK_START]]
    apply link_line_ok
    intro hm
    rcases List.mem_append.mp hm with hm | hm
    · exact hu hm
    · rcases List.mem_cons.mp hm with hm | hm
      · exact absurd hm (by decide)
      · exact hl l rfl hm

theorem pre_toggle_ok (alt : List Char) (halt : '\n' ∉ alt) :
    lineOk (LineOrigin.preToggle, PREFORMATTED_TOGGLE_START ++ alt) := by
  have hshape : PREFORMATTED_TOGGLE_START ++ alt =
      BACKTICK :: BACKTICK :: BACKTICK :: alt := by
    simp [PREFORMATTED_TOGGLE_START]
  rw [hshape]
  refine ⟨?_, ?_⟩
  · intro hm
    rcases List.mem_cons.mp hm with hm | hm
    · exact absurd hm (by decide)
    rcases List.mem_cons.mp hm with hm | hm
    · exact absurd hm (by decide)
    rcases List.mem_cons.mp hm with hm | hm
    · exact absurd hm (by decide)
    exact halt hm
  · intro r hr hpre
    simp only [SPECIAL_STARTS, List.mem_cons, List.not_mem_nil, or_false] at hr
    rcases hr with rfl | rfl | rfl | rfl | rfl
    · rw [show LINK_START = '=' :: ['>'] from rfl,
        isPrefixOf_cons_head (by decide)] at hpre
      exact Bool.noConfusion hpre
    · decide
    · rw [show HEADING_START = '#' :: [] from rfl,
        isPrefixOf_cons_head (by decide)] at hpre
      exact Bool.noConfusion hpre
    · rw [show UNORDERED_LIST_ITEM_START = '*' :: [] from rfl,
        isPrefixOf_cons_head (by decide)] at hpre
      exact Bool.noConfusion hpre
    · rw [show QUOTE_START = '>' :: [] from rfl,
        isPrefixOf_cons_head (by decide)] at hpre
      exact Bool.noConfusion hpre

theorem pre_body_ok (l : List Char) :
    lineOk (LineOrigin.preBody, lossy_escaped_line l [PREFORMATTED_TOGGLE_START]) := by
  refine ⟨lossy_escaped_line_no_nl _ _, ?_⟩
  exact startsWithAny_false_elim _ _
    (lossy_escaped_line_not_special l [PREFORMATTED_TOGGLE_START]
      (by
        intro r hr
        simp only [List.mem_singleton] at hr
        subst hr
        exact ⟨BACKTICK, [BACKTICK, BACKTICK], rfl, by decide⟩))
    PREFORMATTED_TOGGLE_START (List.mem_singleton_self _)

theorem heading_line_ok (lvl : HeadingLevel) (t : List Char) (h : '\n' ∉ t) :
    lineOk (LineOrigin.headingLine, levelChars lvl ++ ' ' :: t) := by
  refine ⟨?_, ?_⟩
  · intro hm
    rcases List.mem_append.mp hm with hm | hm
    · exact absurd hm (by cases lvl <;> decide)
    · rcases List.mem_cons.mp hm with hm | hm
      · exact absurd hm (by decide)
      · exact h hm
  · intro r hr hpre
    have hhead : ∃ rest, levelChars lvl ++ ' ' :: t = '#' :: rest := by
      cases lvl
      · exact ⟨' ' :: t, rfl⟩
      · exact ⟨'#' :: ' ' :: t, rfl⟩
      · exact ⟨'#' :: '#' :: ' ' :: t, rfl⟩
    obtain ⟨rest, hrw⟩ := hhead
    rw [hrw] at hpre
    simp only [SPECIAL_STARTS, List.mem_cons, List.not_mem_nil, or_false] at hr
    rcases hr with rfl | rfl | rfl | rfl | rfl
    · rw [show LINK_START = '=' :: ['>'] from rfl,
        isPrefixOf_cons_head (by decide)] at hpre
      exact Bool.noConfusion hpre
    · rw [show PREFORMATTED_TOGGLE_START = BACKTICK :: [BACKTICK, BACKTICK] from rfl,
        isPrefixOf_cons_head (by decide)] at hpre
      exact Bool.noConfusion hpre
    · decide
    · rw [show UNORDERED_LIST_ITEM_START = '*' :: [] from rfl,
        isPrefixOf_cons_head (by decide)] at hpre
      exact Bool.noConfusion hpre
    · rw [show QUOTE_START = '>' :: [] from rfl,
        isPrefixOf_cons_head (by decide)] at hpre
      exact Bool.noConfusion hpre

theorem list_line_ok (s : List Char) (h : '\n' ∉ s) :
    lineOk (LineOrigin.listLine, '*' :: ' ' :: s) := by
  refine ⟨?_, ?_⟩
  · intro hm
    rcases List.mem_cons.mp hm with hm | hm
    · exact absurd hm (by decide)
    rcases List.mem_cons.mp hm with hm | hm
    · exact absurd hm (by decide)
    exact h hm
  · intro r hr hpre
    simp only [SPECIAL_STARTS, List.mem_cons, List.not_mem_nil, or_false] at hr
    rcases hr with rfl | rfl | rfl | rfl | rfl
    · rw [show LINK_START = '=' :: ['>'] from rfl,
        isPrefixOf_cons_head (by decide)] at hpre
      exact Bool.noConfusion hpre
    · rw [show PREFORMATTED_TOGGLE_START = BACKTICK :: [BACKTICK, BACKTICK] from rfl,
        isPrefixOf_cons_head (by decide)] at hpre
      exact Bool.noConfusion hpre
    · rw [show HEADING_START = '#' :: [] from rfl,
        isPrefixOf_cons_head (by decide)] at hpre
      exact Bool.noConfusion hpre
    · decide
    · rw [show QUOTE_START = '>' :: [] from rfl,
        isPrefixOf_cons_head (by decide)] at hpre
      exact Bool.noConfusion hpre

theorem quote_line_ok (l : List Char) :
    lineOk (LineOrigin.quoteLine, '>' :: ' ' :: lossy_escaped_line l [QUOTE_START]) := by
  refine ⟨?_, ?_⟩
  · intro hm
    rcases List.mem_cons.mp hm with hm | hm
    · exact absurd hm (by decide)
    rcases List.mem_cons.mp hm with hm | hm
    · exact absurd hm (by decide)
    exact lossy_escaped_line_no_nl l [QUOTE_START] hm
  · intro r hr hpre
    simp only [SPECIAL_STARTS, List.mem_cons, List.not_mem_nil, or_false] at hr
    rcases hr with rfl | rfl | rfl | rfl | rfl
    · rw [show LINK_START = '=' :: ['>'] from rfl,
        isPrefixOf_cons_head (by decide)] at hpre
      exact Bool.noConfusion hpre
    · rw [show PREFORMATTED_TOGGLE_START = BACKTICK :: [BACKTICK, BACKTICK] from rfl,
        isPrefixOf_cons_head (by decide)] at hpre
      exact Bool.noConfusion hpre
    · rw [show HEADING_START = '#' :: [] from rfl,
        isPrefixOf_cons_head (by decide)] at hpre
      exact Bool.noConfusion hpre
    · rw [show UNORDERED_LIST_ITEM_START = '*' :: [] from rfl,
        isPrefixOf_cons_head (by decide)] at hpre
      exact Bool.noConfusion hpre
    · decide

theorem renderItem_eq_itemLines (it : Item) :
    renderItem it = ((itemLines it).map (fun l => l.2 ++ ['\n'])).flatten := by
  cases it with
  | link uri lbl =>
    cases lbl <;>
      simp [renderItem, itemLines, List.append_assoc]
  | preformatted alt lines =>
    simp only [renderItem, itemLines, List.map_cons, List.map_append,
      List.map_map, List.flatten_cons, List.flatten_append, List.append_assoc,
      List.flatten, List.append_nil]
    rfl
  | _ =>
    simp [renderItem, itemLines]

theorem docLines_append (items new : List Item) :
    docLines ⟨items ++ new⟩ =
      docLines ⟨items⟩ ++ (new.map itemLines).flatten := by
  simp [docLines, List.map_append, List.flatten_append]

theorem render_eq_docLines (d : Document) :
    render d = ((docLines d).map (fun l => l.2 ++ ['\n'])).flatten := by
  obtain ⟨items⟩ := d
  induction items with
  | nil => rfl
  | cons it rest ih =>
    simp only [render, docLines] at ih ⊢
    simp only [List.map_cons, List.flatten_cons, List.map_append,
      List.flatten_append]
    rw [renderItem_eq_itemLines it, ih]

theorem docLines_build_append (d : Document) (new : List Item)
    (hd : ∀ l ∈ docLines d, lineOk l)
    (hnew : ∀ it ∈ new, ∀ x ∈ itemLines it, lineOk x) :
    ∀ l ∈ docLines ⟨d.items ++ new⟩, lineOk l := by
  intro l hl
  rw [docLines_append] at hl
  rcases List.mem_append.mp hl with h | h
  · exact hd l h
  · rw [List.mem_flatten] at h
    obtain ⟨L, hL, hlL⟩ := h
    rw [List.mem_map] at hL
    obtain ⟨it, hit, rfl⟩ := hL
    exact hnew it hit l hlL

theorem pre_items_ok (alt text : List Char) :
    ∀ x ∈ itemLines (Item.preformatted (strip_newlines alt)
      ((rustLines text).map
        (fun l => lossy_escaped_line l [PREFORMATTED_TOGGLE_START]))), lineOk x := by
  intro x hx
  simp only [itemLines, List.mem_cons] at hx
  rcases hx with rfl | hx
  · exact pre_toggle_ok (strip_newlines alt) (strip_newlines_no_nl alt)
  rcases List.mem_append.mp hx with hx | hx
  · rw [List.map_map, List.mem_map] at hx
    obtain ⟨line, _, rfl⟩ := hx
    exact pre_body_ok line
  · rw [List.mem_singleton] at hx
    subst hx
    simpa using pre_toggle_ok [] (by simp)

theorem applyOp_ok (d : Document) (op : Op) (hop : opUriOk op)
    (hd : ∀ l ∈ docLines d, lineOk l) :
    ∀ l ∈ docLines (applyOp d op), lineOk l := by
  cases op with
  | opText s =>
    apply docLines_build_append d _ hd
    intro it hit
    rw [List.mem_map] at hit
    obtain ⟨line, _, rfl⟩ := hit
    intro x hx
    simp only [itemLines, List.mem_singleton] at hx
    subst hx
    exact text_escaped_ok line
  | opBlank =>
    apply docLines_build_append d _ hd
    intro it hit
    rw [List.mem_singleton] at hit
    subst hit
    intro x hx
    simp only [itemLines, List.mem_singleton] at hx
    subst hx
    exact blank_text_ok
  | opLink uri label =>
    apply docLines_build_append d _ hd
    intro it hit
    rw [List.mem_singleton] at hit
    subst hit
    exact link_item_ok uri (some (strip_newlines label)) hop
      (fun l hl => by
        injection hl with hl
        subst hl
        exact strip_newlines_no_nl label)
  | opLinkNoLabel uri =>
    apply docLines_build_append d _ hd
    intro it hit
    rw [List.mem_singleton] at hit
    subst hit
    exact link_item_ok uri none hop (fun l hl => Option.noConfusion hl)
  | opPre text =>
    apply docLines_build_append d _ hd
    intro it hit
    rw [List.mem_singleton] at hit
    subst hit
    exact pre_items_ok [] text
  | opPreAlt alt text =>
    apply docLines_build_append d _ hd
    intro it hit
    rw [List.mem_singleton] at hit
    subst hit
    exact pre_items_ok alt text
  | opHeading lvl text =>
    apply docLines_build_append d _ hd
    intro it hit
    rw [List.mem_singleton] at hit
    subst hit
    intro x hx
    simp only [itemLines, List.mem_singleton] at hx
    subst hx
    exact heading_line_ok lvl _ (strip_newlines_no_nl text)
  | opListItem text =>
    apply docLines_build_append d _ hd
    intro it hit
    rw [List.mem_singleton] at hit
    subst hit
    intro x hx
    simp only [itemLines, List.mem_singleton] at hx
    subst hx
    exact list_line_ok _ (strip_newlines_no_nl text)
  | opQuote text =>
    apply docLines_build_append d _ hd
    intro it hit
    rw [List.mem_map] at hit
    obtain ⟨line, _, rfl⟩ := hit
    intro x hx
    simp only [itemLines, List.mem_singleton] at hx
    subst hx
    exact quote_line_ok line

theorem buildDoc_lines_ok : ∀ (ops : List Op) (d : Document),
    (∀ op ∈ ops, opUriOk op) → (∀ l ∈ docLines d, lineOk l) →
    ∀ l ∈ docLines (ops.foldl applyOp d), lineOk l := by
  intro ops
  induction ops with
  | nil =>
    intro d _ hd
    simpa using hd
  | cons op rest ih =>
    intro d hops hd
    simp only [List.foldl_cons]
    exact ih (applyOp d op)
      (fun o ho => hops o (List.mem_cons_of_mem op ho))
      (applyOp_ok d op (hops op (List.mem_cons_self _ _)) hd)

/-- C6: for every document built through the public builder API (with
link URIs as rendered by the external URI parser, hence
newline-free), the serialization splits into labeled lines, each
followed by `'\n'`, and every line satisfies `lineOk`: a line starting
with a reserved prefix (`=>`, three backticks, `#`, `*`, `>`)
originates from that prefix's constructor, and no preformatted inner
line starts with (in particular, equals) the toggle. -/
theorem document_line_safety (ops : List Op) (h : ∀ op ∈ ops, opUriOk op) :
    render (buildDoc ops) =
      ((docLines (buildDoc ops)).map (fun l => l.2 ++ ['\n'])).flatten ∧
    ∀ l ∈ docLines (buildDoc ops), lineOk l := by
  refine ⟨render_eq_docLines _, ?_⟩
  exact buildDoc_lines_ok ops ⟨[]⟩ h (by simp [docLines])

theorem document_line_safety_witness :
    render (buildDoc [Op.opText "=> sneaky".toList,
        Op.opPre "```x".toList, Op.opHeading HeadingLevel.h1 "hi".toList]) =
      ((docLines (buildDoc [Op.opText "=> sneaky".toList,
        Op.opPre "```x".toList, Op.opHeading HeadingLevel.h1 "hi".toList])).map
          (fun l => l.2 ++ ['\n'])).flatten :=
  (document_line_safety
    [Op.opText "=> sneaky".toList, Op.opPre "```x".toList,
      Op.opHeading HeadingLevel.h1 "hi".toList]
    (by
      intro op hop
      simp only [List.mem_cons, List.not_mem_nil, or_false] at hop
      rcases hop with rfl | rfl | rfl <;> exact trivial)).1

end Twinstar
